import Mathlib

set_option autoImplicit false

namespace TickerClassifier

/-!
Shallow embedding of the ticker-classifier repository
(`ticker_classifier/classifier.py`, `ticker_classifier/apis/coingecko.py`,
`ticker_classifier/apis/yahoo.py`, `ticker_classifier/db/cache.py`).

Modelling conventions:
* Python `dict` values with a fixed key set become structures; a field that a
  dict may lack is an `Option` (with `Option.none` also standing for a JSON
  `null` where the two are indistinguishable to the code under study, except
  for `marketCap`, where the distinction matters and is kept).
* Market capitalisations and timestamps are modelled as `Int` (the code only
  compares them; ISO timestamp strings compare lexicographically, which for a
  fixed format is the numeric order).
* Mappings are association lists (`List (k × v)`) or plain functions
  `k → Option v`; `List.lookup` is dict lookup.
* Python code that can raise returns `Except String _`.
-/

/-! ### Python string primitives -/

/-- Python whitespace test for the ASCII whitespace characters relevant to
`str.strip` on ticker input. -/
def pyIsSpace (c : Char) : Bool :=
  c = ' ' || c = '\t' || c = '\n' || c = '\r'

/-- Characters of a string after `str.strip`: leading and trailing
whitespace removed. -/
def stripChars (l : List Char) : List Char :=
  ((l.dropWhile pyIsSpace).reverse.dropWhile pyIsSpace).reverse

/-- Python `s.strip()`. -/
def pyStrip (s : String) : String := String.mk (stripChars s.data)

/-- Python `s.upper()` (ASCII, which is all that ticker symbols use). -/
def pyUpper (s : String) : String := String.mk (s.data.map Char.toUpper)

/-- Python `s.upper().strip()`, the normalisation applied by
`classify_bulk` both when deduplicating and when projecting results back. -/
def pyNormalize (s : String) : String := pyStrip (pyUpper s)

/-- Python `a or b` on optional strings: `a` when truthy (not `None`, not
empty), else `b`.  Models `info.get("shortName") or info.get("longName")`. -/
def pyOrStr (a b : Option String) : Option String :=
  match a with
  | some s => if s = "" then b else some s
  | none => b

/-- Helper for Python `s.title()`: the boolean says whether the previous
character was alphabetic. -/
def pyTitleChars : Bool → List Char → List Char
  | _, [] => []
  | prevAlpha, c :: cs =>
    (if c.isAlpha then (if prevAlpha then c.toLower else c.toUpper) else c) ::
      pyTitleChars c.isAlpha cs

/-- Python `s.title()` as used on CoinGecko ids (`cid.title()`). -/
def pyTitle (s : String) : String := String.mk (pyTitleChars false s.data)

/-! ### Data model of provider records -/

/-- Score value of the stock slot before the duel: either a genuine integer
or Python `None` (which arises from a quote whose `marketCap` field is
present but `null`). -/
inductive PyNum where
  | none
  | int (n : Int)
  deriving DecidableEq, Repr

/-- One Yahoo quote record, as consumed by `_process_duel` and produced by
`YahooClient.get_quotes_sync`.  `marketCap` distinguishes an absent key
(`Option.none`), a key present with JSON `null` (`some Option.none`) and a
number (`some (some n)`). -/
structure YahooItem where
  symbol : String
  quoteType : Option String
  marketCap : Option (Option Int)
  shortName : Option String
  longName : Option String
  deriving DecidableEq, Repr

/-- One per-symbol CoinGecko result, as built by
`CoinGeckoClient._process_response` and consumed by `_process_duel`
(keys `market_cap`, `name`, `id`). -/
structure CGEntry where
  market_cap : Option Int
  name : Option String
  id : Option String
  deriving DecidableEq, Repr

/-- Per-slot `details` sub-dict of the duel structure. -/
structure Detail where
  type : Option String
  name : Option String
  market_cap : Option Int
  deriving DecidableEq, Repr

/-- The three `details` slots of one symbol's duel record. -/
structure Details where
  stock : Option Detail
  crypto : Option Detail
  forex : Option Detail
  deriving DecidableEq, Repr

/-- Final classification dict emitted by `_process_duel`.  The Unknown case
produces a dict with only `category` and `ticker`; here the remaining
fields are `Option.none` / `[]` (key absent and value `None` are conflated,
which no piece of the code distinguishes for these fields). -/
structure Final where
  category : Option String
  ticker : String
  name : Option String
  market_cap : Option Int
  yahoo_lookup : Option String
  alternatives : List String
  source : Option String
  deriving DecidableEq, Repr

/-! ### Forex constants

Modelled from the spec: `constants.py` (imported by `classifier.py` for
`MAJOR_FOREX`, `MINOR_FOREX` and `SHORTCUTS`) is not among the sources.
The spec describes two disjoint fixed sets of currency codes — Major
currencies with a very large weight and Minor currencies with a small
weight — and mentions the majors through examples such as EUR and USD, plus
a hardcoded shortcut table containing commodity symbols such as GOLD. -/

/-- Modelled from the spec: the fixed Major currency set of `constants.py`
(absent from src), represented by the standard major currency codes the
spec alludes to. -/
def MAJOR_FOREX : List String :=
  ["USD", "EUR", "JPY", "GBP", "AUD", "CAD", "CHF", "NZD"]

/-- Modelled from the spec: the fixed Minor currency set of `constants.py`
(absent from src). -/
def MINOR_FOREX : List String :=
  ["SEK", "NOK", "DKK", "ZAR", "TRY", "MXN", "SGD", "HKD"]

/-- Modelled from the spec: the hardcoded shortcut table of `constants.py`
(absent from src); a fixed override record for known symbols such as GOLD. -/
def SHORTCUTS : String → Option Final := fun sym =>
  if sym = "GOLD" then
    some { category := some "Commodity", ticker := "GOLD", name := some "Gold",
           market_cap := Option.none, yahoo_lookup := some "GC=F",
           alternatives := [], source := Option.none }
  else Option.none

/-! ### The duel resolver (`MarketClassifier._process_duel`) -/

/-- The three competing slots, in the fixed duel order. -/
inductive Slot where
  | stock
  | crypto
  | forex
  deriving DecidableEq, Repr

/-- Dict key of a slot. -/
def slotName : Slot → String
  | Slot.stock => "stock"
  | Slot.crypto => "crypto"
  | Slot.forex => "forex"

/-- Score of a slot given the three computed scores. -/
def slotScore (st cr fx : Int) : Slot → Int
  | Slot.stock => st
  | Slot.crypto => cr
  | Slot.forex => fx

/-- Forex heuristic score: a huge weight for Major currencies, a small one
for Minor currencies, 0 otherwise. -/
def forexScore (sym : String) : Int :=
  if sym ∈ MAJOR_FOREX then 100000000000000
  else if sym ∈ MINOR_FOREX then 50000000
  else 0

/-- Value of `info.get("marketCap", 0)`: absent key defaults to the integer
0, a present `null` is Python `None`. -/
def rawMcap (info : YahooItem) : PyNum :=
  match info.marketCap with
  | Option.none => PyNum.int 0
  | some Option.none => PyNum.none
  | some (some n) => PyNum.int n

/-- Value of `info.get("quoteType", "UNKNOWN")`. -/
def quoteTypeOf (info : YahooItem) : String := info.quoteType.getD "UNKNOWN"

/-- Stock score of one Yahoo record: the raw market cap, overridden by the
fixed constants for INDEX and FUTURE quote types. -/
def stockScoreOf (info : YahooItem) : PyNum :=
  let s0 := rawMcap info
  let s1 := if quoteTypeOf info = "INDEX" then PyNum.int 50000000000 else s0
  if quoteTypeOf info = "FUTURE" then PyNum.int 10000000000 else s1

/-- Stock score of a symbol: 0 (the duel structure's initial value) when the
symbol is absent from the Yahoo map. -/
def stockScorePy (y : Option YahooItem) : PyNum :=
  match y with
  | Option.none => PyNum.int 0
  | some info => stockScoreOf info

/-- Crypto score: `info.get("market_cap", 0)`, or the initial 0 when the
symbol is absent from the crypto map. -/
def cryptoScore (c : Option CGEntry) : Int :=
  match c with
  | Option.none => 0
  | some e => e.market_cap.getD 0

/-- Forex details entry (written for both Major and Minor matches). -/
def forexDetail (sym : String) : Detail :=
  { type := some "Forex", name := some (sym ++ " Currency"), market_cap := Option.none }

/-- Conversion of a stock-score style value to the stored `market_cap`
detail field (`None` stays `None`). -/
def pyNumToOpt : PyNum → Option Int
  | PyNum.none => Option.none
  | PyNum.int n => some n

/-- Stock details entry built from a Yahoo record. -/
def stockDetail (info : YahooItem) : Detail :=
  { type := some (quoteTypeOf info),
    name := pyOrStr info.shortName info.longName,
    market_cap := pyNumToOpt (rawMcap info) }

/-- Crypto details entry built from a CoinGecko result. -/
def cryptoDetail (e : CGEntry) : Detail :=
  { type := some "Crypto", name := e.name, market_cap := some (e.market_cap.getD 0) }

/-- The `details` sub-dict accumulated for one symbol. -/
def mkDetails (sym : String) (y : String → Option YahooItem)
    (c : String → Option CGEntry) : Details :=
  { stock := (y sym).map stockDetail,
    crypto := (c sym).map cryptoDetail,
    forex := if sym ∈ MAJOR_FOREX ∨ sym ∈ MINOR_FOREX then some (forexDetail sym)
      else Option.none }

/-- Lookup of `details[winner]`. -/
def detailFor (ds : Details) : Slot → Option Detail
  | Slot.stock => ds.stock
  | Slot.crypto => ds.crypto
  | Slot.forex => ds.forex

/-- Winner computed the way Python's
`max(["stock", "crypto", "forex"], key=lambda k: scores[k])` does: keep the
current best and replace it only on a strictly greater score. -/
def codeWinner (st cr fx : Int) : Slot :=
  let b1 := decide (cr > st)
  let bv := if b1 then cr else st
  if fx > bv then Slot.forex else if b1 then Slot.crypto else Slot.stock

/-- Resolution step for one symbol once all three scores are known to be
integers (`st` the stock score, `cr` crypto, `fx` forex). -/
def resolveCore (sym : String) (st cr fx : Int) (ds : Details) : Final :=
  let w := codeWinner st cr fx
  if slotScore st cr fx w = 0 then
    { category := some "Unknown", ticker := sym, name := Option.none,
      market_cap := Option.none, yahoo_lookup := Option.none,
      alternatives := [], source := Option.none }
  else
    let d := (detailFor ds w).getD
      { type := Option.none, name := Option.none, market_cap := Option.none }
    let alts := ([Slot.stock, Slot.crypto, Slot.forex].filter
      (fun k => decide (slotScore st cr fx k > 0) && decide (k ≠ w))).map slotName
    let yLook := if w = Slot.crypto then sym ++ "-USD"
      else if w = Slot.forex then sym ++ "USD=X" else sym
    { category := if w = Slot.stock then d.type else some (slotName w),
      ticker := sym, name := d.name, market_cap := d.market_cap,
      yahoo_lookup := some yLook, alternatives := alts, source := some "api" }

/-- Per-symbol body of `_process_duel`.  When the stock score is Python
`None` (a present-but-`null` `marketCap` on a quote type that is neither
INDEX nor FUTURE), the winner computation `max(..., key=...)` compares an
integer against `None` and raises `TypeError`; otherwise all comparisons
are between integers and the resolution is pure. -/
def resolveSym (sym : String) (y : String → Option YahooItem)
    (c : String → Option CGEntry) : Except String Final :=
  let fx := forexScore sym
  let cr := cryptoScore (c sym)
  match stockScorePy (y sym) with
  | PyNum.none =>
    Except.error "TypeError: '>' not supported between instances of 'int' and 'NoneType'"
  | PyNum.int st => Except.ok (resolveCore sym st cr fx (mkDetails sym y c))

/-- The duel resolver `_process_duel`: builds the per-symbol scores and
resolves each symbol of `toProcess`, returning the symbol-keyed result map
as an association list (a raised `TypeError` aborts the whole call). -/
def processDuel (toProcess : List String) (y : String → Option YahooItem)
    (c : String → Option CGEntry) : Except String (List (String × Final)) :=
  toProcess.mapM (fun sym => (resolveSym sym y c).map (fun f => (sym, f)))

/-- Winner as the claim states it: the slot whose score equals the maximum
of the three, the first one in the fixed order stock, crypto, forex when
several attain it. -/
def specWinner (st cr fx : Int) : Slot :=
  let m := max st (max cr fx)
  if st = m then Slot.stock else if cr = m then Slot.crypto else Slot.forex

/-! ### CoinGecko client (`apis/coingecko.py`) -/

/-- One entry of the full CoinGecko coin listing. -/
structure Coin where
  symbol : String
  id : String
  deriving DecidableEq, Repr

/-- State of the client's lazily-built symbol index: `Option.none` before
any load attempt, `some m` after one (`m = []` models the plain empty dict
the failure handler installs). -/
structure CGState where
  crypto_map : Option (List (String × List String))
  deriving DecidableEq, Repr

/-- Append one id under a symbol key, as `defaultdict(list)` appending does. -/
def mapAppend (m : List (String × List String)) (k v : String) :
    List (String × List String) :=
  match m with
  | [] => [(k, [v])]
  | (k', vs) :: rest =>
    if k' = k then (k', vs ++ [v]) :: rest else (k', vs) :: mapAppend rest k v

/-- Index construction from a fetched listing:
`_crypto_map[coin["symbol"].upper()].append(coin["id"])`. -/
def buildCryptoMap (coins : List Coin) : List (String × List String) :=
  coins.foldl (fun m coin => mapAppend m (pyUpper coin.symbol) coin.id) []

/-- Python truthiness of `self._crypto_map`: `None` and the empty dict are
both falsy. -/
def truthyMap (m : Option (List (String × List String))) : Bool :=
  match m with
  | Option.none => false
  | some l => decide (l ≠ [])

/-- `_load_map_sync`, invoked at the start of every `get_prices_sync` call:
returns the new state and whether the full-listing fetch was issued.
`fetch` is the listing the network would deliver (`Option.none` models a
request that raises); on failure the map becomes the empty dict. -/
def loadMapSync (st : CGState) (fetch : Option (List Coin)) : CGState × Bool :=
  if truthyMap st.crypto_map then (st, false)
  else
    match fetch with
    | some coins => (⟨some (buildCryptoMap coins)⟩, true)
    | Option.none => (⟨some []⟩, true)

/-- `_load_map_async`, invoked at the start of every `get_prices_async`
call; its body is the async mirror of `_load_map_sync` with the same guard
and the same failure handler. -/
def loadMapAsync (st : CGState) (fetch : Option (List Coin)) : CGState × Bool :=
  if truthyMap st.crypto_map then (st, false)
  else
    match fetch with
    | some coins => (⟨some (buildCryptoMap coins)⟩, true)
    | Option.none => (⟨some []⟩, true)

/-- Price record for one id in a CoinGecko `simple/price` response. -/
structure PriceVal where
  usd_market_cap : Option Int
  deriving DecidableEq, Repr

/-- Python truthiness check `if parent:` on an optional string. -/
def truthyStrOpt (s : Option String) : Bool :=
  match s with
  | Option.none => false
  | some t => decide (t ≠ "")

/-- Result entry written by `_process_response` for a winning candidate. -/
def mkCGEntry (cid : String) (mcap : Int) : CGEntry :=
  { market_cap := some mcap, name := some (pyTitle cid), id := some cid }

/-- One iteration of `_process_response`'s loop: look up the parent symbol
of the id, and overwrite the parent's entry when this candidate's market
cap strictly exceeds the current best (`results.get(parent, {}).get("market_cap", 0)`). -/
def processItem (idMap : String → Option String) (results : String → Option CGEntry)
    (item : String × PriceVal) : String → Option CGEntry :=
  let parent := idMap item.1
  if truthyStrOpt parent then
    let p := parent.getD ""
    let mcap := item.2.usd_market_cap.getD 0
    if mcap > cryptoScore (results p) then
      fun s => if s = p then some (mkCGEntry item.1 mcap) else results s
    else results
  else results

/-- `_process_response`: folds one decoded price response into the mutable
`results` dict. -/
def processResponse (data : List (String × PriceVal)) (idMap : String → Option String)
    (results : String → Option CGEntry) : String → Option CGEntry :=
  data.foldl (processItem idMap) results

/-- Queried candidates of one parent symbol within a response: the ids the
id-map sends to it, in response order, with their market caps (missing
`usd_market_cap` defaults to 0). -/
def candidatesFor (p : String) (data : List (String × PriceVal))
    (idMap : String → Option String) : List (String × Int) :=
  data.filterMap (fun item =>
    if idMap item.1 = some p then some (item.1, item.2.usd_market_cap.getD 0)
    else Option.none)

/-- Largest market cap among a list of candidates (0 when there are none). -/
def maxCap (cs : List (String × Int)) : Int :=
  (cs.map Prod.snd).foldr max 0

/-- Selection rule as the spec states it: the candidate with the strictly
greatest market capitalization wins, a tie for the maximum keeps the
first-seen candidate, and a symbol none of whose candidates priced above 0
gets no entry. -/
def cryptoSpecSelect (cs : List (String × Int)) : Option CGEntry :=
  if maxCap cs > 0 then
    (cs.find? (fun c => decide (c.2 = maxCap cs))).map (fun c => mkCGEntry c.1 c.2)
  else Option.none

/-- Left-to-right best-candidate fold of `_process_response` restricted to
the candidates of a single parent symbol. -/
def bestAux (acc : Option CGEntry) : List (String × Int) → Option CGEntry
  | [] => acc
  | c :: cs =>
    bestAux (if c.2 > cryptoScore acc then some (mkCGEntry c.1 c.2) else acc) cs

/-! ### Yahoo client (`apis/yahoo.py`) -/

/-- Cookie-and-crumb credentials; their contents are irrelevant here. -/
structure Creds where
  crumb : String
  deriving DecidableEq, Repr

/-- Outcome of the quote HTTP request: a status code with an optionally
well-formed body (`Option.none` when the decoded JSON lacks
`quoteResponse` / `result`), or a raised exception. -/
inductive HttpOutcome where
  | response (status : Nat) (body : Option (List YahooItem))
  | raised
  deriving DecidableEq, Repr

/-- Assignment `d[k] = v` on an association-list dict: replaces the
existing binding or appends a new one. -/
def dictSet {α : Type} (d : List (String × α)) (k : String) (v : α) :
    List (String × α) :=
  if d.any (fun e => decide (e.1 = k)) then
    d.map (fun e => if e.1 = k then (k, v) else e)
  else d ++ [(k, v)]

/-- Result-map construction of `get_quotes_sync`:
`results[item["symbol"].upper()] = item` for every item of the response's
result list, with no filtering by quote type. -/
def buildQuoteResults (items : List YahooItem) : List (String × YahooItem) :=
  items.foldl (fun acc it => dictSet acc (pyUpper it.symbol) it) []

/-- `get_quotes_sync`: empty result on an empty batch, missing credentials,
a raised request, a malformed body, or a non-200 status; a 401 status also
clears the stored credentials.  Returns the result map and the credential
state after the call. -/
def getQuotesSync (symbols : List String) (creds : Option Creds)
    (outcome : HttpOutcome) : List (String × YahooItem) × Option Creds :=
  if symbols = [] then ([], creds)
  else
    match creds with
    | Option.none => ([], Option.none)
    | some cr =>
      match outcome with
      | HttpOutcome.raised => ([], some cr)
      | HttpOutcome.response status body =>
        if status = 200 then
          match body with
          | some items => (buildQuoteResults items, some cr)
          | Option.none => ([], some cr)
        else if status = 401 then ([], Option.none)
        else ([], some cr)

/-- Quote types the spec's adapter contract recognizes (the claim's set
equity, ETF, index, mutual fund, future, in the provider's spelling). -/
def recognizedQuoteTypes : List String :=
  ["EQUITY", "ETF", "INDEX", "MUTUALFUND", "FUTURE"]

/-! ### Ticker cache (`db/cache.py`) -/

/-- One row of the `tickers` table: the `symbol` primary key, the
serialized classification, and the write timestamp. -/
structure Row where
  symbol : String
  data : Final
  updated_at : Int
  deriving DecidableEq, Repr

/-- Methods defined on the `TickerCache` class — its entire surface in
`db/cache.py`. -/
def tickerCacheMethods : List String :=
  ["__init__", "_init_db", "get_many", "save_many"]

/-- `get_many`: rows among the requested symbols whose timestamp is
strictly newer than `now` minus the expiry window, each decorated with
`source = "cache"`; an empty request short-circuits to an empty dict. -/
def get_many (table : List Row) (symbols : List String) (now hoursToExpire : Int) :
    List (String × Final) :=
  if symbols = [] then []
  else
    (table.filter (fun r =>
        decide (r.symbol ∈ symbols) && decide (r.updated_at > now - hoursToExpire))).map
      (fun r => (r.symbol, { r.data with source := some "cache" }))

/-- Replace-or-append for `INSERT OR REPLACE` keyed on the `symbol` primary
key. -/
def upsert (table : List Row) (r : Row) : List Row :=
  if table.any (fun q => decide (q.symbol = r.symbol)) then
    table.map (fun q => if q.symbol = r.symbol then r else q)
  else table ++ [r]

/-- Removal of the provenance key (`clean = ... if k != "source"`). -/
def stripSource (f : Final) : Final := { f with source := Option.none }

/-- `save_many`: skips records whose category is Unknown, strips `source`,
stamps every written row with `now`, and upserts them by symbol. -/
def save_many (table : List Row) (items : List (String × Final)) (now : Int) :
    List Row :=
  if items = [] then table
  else
    ((items.filter (fun p => decide (p.2.category ≠ some "Unknown"))).map
      (fun p => Row.mk p.1 (stripSource p.2) now)).foldl upsert table

/-! ### Bulk orchestration (`MarketClassifier.classify_bulk`) -/

/-- Shortcut record decorated with its provenance tag. -/
def withShortcutSource (f : Final) : Final := { f with source := some "shortcut" }

/-- Per-symbol branch of the results-map construction: shortcut wins first,
then a fresh cache record, otherwise the symbol joins `to_process`. -/
def baseStep (cached : String → Option Final)
    (acc : List (String × Final) × List String) (sym : String) :
    List (String × Final) × List String :=
  match SHORTCUTS sym with
  | some r => (acc.1 ++ [(sym, withShortcutSource r)], acc.2)
  | Option.none =>
    match cached sym with
    | some r => (acc.1 ++ [(sym, r)], acc.2)
    | Option.none => (acc.1, acc.2 ++ [sym])

/-- Shortcut/cache partition over the deduplicated working set, yielding
the initial `results_map` and `to_process`. -/
def buildBase (unique : List String) (cached : String → Option Final) :
    List (String × Final) × List String :=
  unique.foldl (baseStep cached) ([], [])

/-- Lookup in `results_map` after `results_map.update(processed)`: a
freshly processed entry wins over a shortcut or cache entry. -/
def updatedLookup (processed base : List (String × Final)) (n : String) :
    Option Final :=
  match processed.lookup n with
  | some v => some v
  | Option.none => base.lookup n

/-- Working set of `classify_bulk`:
`list({s.upper().strip() for s in symbols if s.strip()})` — empty and
whitespace-only inputs are dropped, the rest normalized and deduplicated
(the Python set iterates in an unspecified order; first-occurrence order is
one admissible order and every per-symbol result is order-independent). -/
def uniqueOf (symbols : List String) : List String :=
  ((symbols.filter (fun s => decide (pyStrip s ≠ ""))).map pyNormalize).dedup

/-- `classify_bulk`: normalize and deduplicate the input, partition into
shortcut/cache/to-process, duel the remainder, and project results back
onto the original input order.  The cache write does not affect the
returned list; `processDuel [] _ _ = Except.ok []`, so the
`if to_process:` guard is the identity in this model. -/
def classifyBulk (symbols : List String) (cached : String → Option Final)
    (y : String → Option YahooItem) (c : String → Option CGEntry) :
    Except String (List (Option Final)) := do
  let base := buildBase (uniqueOf symbols) cached
  let processed ← processDuel base.2 y c
  return symbols.map (fun s => updatedLookup processed base.1 (pyNormalize s))

/-! ## Helper lemmas -/

/-- Python's first-maximum `max` agrees with the claim's description of the
winner: the slot attaining the maximum score that comes first in the fixed
order stock, crypto, forex. -/
theorem codeWinner_eq_specWinner (st cr fx : Int) :
    codeWinner st cr fx = specWinner st cr fx := by
  unfold codeWinner specWinner
  by_cases h1 : cr > st
  · by_cases h2 : fx > cr
    · have hm : max st (max cr fx) = fx := by omega
      have hst : ¬ st = fx := by omega
      have hcr : ¬ cr = fx := by omega
      simp [h1, h2, hm, hst, hcr]
    · have hm : max st (max cr fx) = cr := by omega
      have hst : ¬ st = cr := by omega
      simp [h1, h2, hm, hst]
  · by_cases h2 : fx > st
    · have hm : max st (max cr fx) = fx := by omega
      have hst : ¬ st = fx := by omega
      have hcr : ¬ cr = fx := by omega
      simp [h1, h2, hm, hst, hcr]
    · have hm : max st (max cr fx) = st := by omega
      simp [h1, h2, hm]

/-- A successful `_process_duel` call resolves every requested symbol and
stores the per-symbol resolution under the symbol key. -/
theorem processDuel_lookup (tp : List String) (y : String → Option YahooItem)
    (c : String → Option CGEntry) (res : List (String × Final)) (sym : String)
    (hok : processDuel tp y c = Except.ok res) (hmem : sym ∈ tp) :
    ∃ f, resolveSym sym y c = Except.ok f ∧ List.lookup sym res = some f := by
  induction tp generalizing res with
  | nil => cases hmem
  | cons t ts ih =>
    rw [processDuel, List.mapM_cons] at hok
    cases hE : resolveSym t y c with
    | error e =>
      rw [hE] at hok
      simp [Except.map, Except.bind, Bind.bind] at hok
    | ok ft =>
      rw [hE] at hok
      cases hR : ts.mapM (fun s => (resolveSym s y c).map (fun f => (s, f))) with
      | error e =>
        rw [hR] at hok
        simp [Except.map, Except.bind, Bind.bind, Pure.pure] at hok
      | ok rest =>
        rw [hR] at hok
        simp only [Except.map, Except.bind, Bind.bind, Pure.pure, Except.pure] at hok
        cases hok
        rcases List.mem_cons.mp hmem with hts | hts
        · subst hts
          exact ⟨ft, hE, by simp [List.lookup]⟩
        · by_cases hst : sym = t
          · subst hst
            exact ⟨ft, hE, by simp [List.lookup]⟩
          · rcases ih rest hR hts with ⟨f, hf, hl⟩
            refine ⟨f, hf, ?_⟩
            rw [List.lookup]
            have hb : (sym == t) = false := beq_eq_false_iff_ne.mpr hst
            rw [hb]
            exact hl

/-! ## Claim C1 -/

/-- C1: for every symbol processed by the duel resolver (with all three
scores genuine integers), the emitted entry is the per-symbol resolution,
the winner is the slot with the strictly greatest score — ties going to the
first among stock, crypto, forex — and a winning score of 0 yields category
Unknown. -/
theorem c1_duel_winner (tp : List String) (y : String → Option YahooItem)
    (c : String → Option CGEntry) (res : List (String × Final)) (sym : String)
    (st : Int) (hok : processDuel tp y c = Except.ok res) (hmem : sym ∈ tp)
    (hst : stockScorePy (y sym) = PyNum.int st) :
    List.lookup sym res =
      some (resolveCore sym st (cryptoScore (c sym)) (forexScore sym)
        (mkDetails sym y c)) ∧
    codeWinner st (cryptoScore (c sym)) (forexScore sym) =
      specWinner st (cryptoScore (c sym)) (forexScore sym) ∧
    (slotScore st (cryptoScore (c sym)) (forexScore sym)
        (codeWinner st (cryptoScore (c sym)) (forexScore sym)) = 0 →
      (resolveCore sym st (cryptoScore (c sym)) (forexScore sym)
        (mkDetails sym y c)).category = some "Unknown") := by
  rcases processDuel_lookup tp y c res sym hok hmem with ⟨f, hf, hl⟩
  rw [resolveSym] at hf
  rw [hst] at hf
  cases hf
  refine ⟨hl, codeWinner_eq_specWinner _ _ _, fun h0 => ?_⟩
  rw [resolveCore]
  simp only [h0, if_true]

/-- Empty Yahoo result map, for concrete instances. -/
def yNone : String → Option YahooItem := fun _ => Option.none

/-- Empty crypto result map, for concrete instances. -/
def cNone : String → Option CGEntry := fun _ => Option.none

/-- Concrete crypto map for the C1 witness. -/
def cW : String → Option CGEntry := fun s =>
  if s = "BTC" then some { market_cap := some 5, name := some "Bitcoin", id := some "bitcoin" }
  else Option.none

/-- Result list `_process_duel` produces on the C1 witness input. -/
def c1resList : List (String × Final) :=
  [("BTC", resolveCore "BTC" 0 (cryptoScore (cW "BTC")) (forexScore "BTC")
    (mkDetails "BTC" yNone cW))]

/-- Witness for C1 at the concrete input. -/
theorem c1_duel_winner_witness :
    List.lookup "BTC" c1resList =
      some (resolveCore "BTC" 0 (cryptoScore (cW "BTC")) (forexScore "BTC")
        (mkDetails "BTC" yNone cW)) ∧
    codeWinner 0 (cryptoScore (cW "BTC")) (forexScore "BTC") =
      specWinner 0 (cryptoScore (cW "BTC")) (forexScore "BTC") := by
  have h := c1_duel_winner ["BTC"] yNone cW c1resList "BTC" 0 (by rfl)
    (by simp) (by rfl)
  exact ⟨h.1, h.2.1⟩

/-! ## Claim C3 -/

/-- C3, amended: for a Major-forex symbol whose stock score is a genuine
integer, the forex slot wins exactly when both the stock score and the
crypto market cap are strictly below 100·10^12 — at a score exactly equal
to the bound the stock or crypto slot takes the tie, because both precede
forex in the duel order — and when forex wins the emitted category is
`forex`. -/
theorem c3_major_forex_amended (sym : String) (y : String → Option YahooItem)
    (c : String → Option CGEntry) (st : Int) (hmem : sym ∈ MAJOR_FOREX)
    (hst : stockScorePy (y sym) = PyNum.int st) :
    resolveSym sym y c =
      Except.ok (resolveCore sym st (cryptoScore (c sym)) 100000000000000
        (mkDetails sym y c)) ∧
    (codeWinner st (cryptoScore (c sym)) 100000000000000 = Slot.forex ↔
      st < 100000000000000 ∧ cryptoScore (c sym) < 100000000000000) ∧
    (st < 100000000000000 → cryptoScore (c sym) < 100000000000000 →
      (resolveCore sym st (cryptoScore (c sym)) 100000000000000
        (mkDetails sym y c)).category = some "forex") := by
  have hfx : forexScore sym = 100000000000000 := by
    rw [forexScore, if_pos hmem]
  have hwin : ∀ cr : Int, codeWinner st cr 100000000000000 = Slot.forex ↔
      st < 100000000000000 ∧ cr < 100000000000000 := by
    intro cr
    unfold codeWinner
    by_cases hb : cr > st
    · by_cases h2 : (100000000000000 : Int) > cr
      · simp [hb, h2] <;> omega
      · simp [hb, h2] <;> omega
    · by_cases h2 : (100000000000000 : Int) > st
      · simp [hb, h2] <;> omega
      · simp [hb, h2] <;> omega
  refine ⟨?_, hwin _, fun h1 h2 => ?_⟩
  · rw [resolveSym]
    simp only [hst, hfx]
  · have hw : codeWinner st (cryptoScore (c sym)) 100000000000000 = Slot.forex :=
      (hwin _).mpr ⟨h1, h2⟩
    rw [resolveCore]
    simp only [hw, slotScore]
    rw [if_neg (by norm_num)]
    simp [slotName]

/-- Witness for the amended C3 at the concrete input EUR with silent
providers. -/
theorem c3_major_forex_amended_witness :
    resolveSym "EUR" yNone cNone =
      Except.ok (resolveCore "EUR" 0 (cryptoScore (cNone "EUR")) 100000000000000
        (mkDetails "EUR" yNone cNone)) ∧
    (resolveCore "EUR" 0 (cryptoScore (cNone "EUR")) 100000000000000
      (mkDetails "EUR" yNone cNone)).category = some "forex" := by
  have h := c3_major_forex_amended "EUR" yNone cNone 0 (by simp [MAJOR_FOREX]) (by rfl)
  exact ⟨h.1, h.2.2 (by norm_num) (by norm_num [cryptoScore, cNone])⟩

/-- Yahoo map for the C3 counterexample: a quote for EUR whose market cap
equals the bound 100·10^12 exactly. -/
def yC3 : String → Option YahooItem := fun s =>
  if s = "EUR" then
    some { symbol := "EUR", quoteType := some "EQUITY",
           marketCap := some (some 100000000000000),
           shortName := some "Euro Asset", longName := Option.none }
  else Option.none

/-- Counterexample to C3 as stated: EUR is a Major forex symbol and the
quote-provider record's market cap is exactly 100·10^12 — not strictly
greater — yet the duel classifies the symbol as EQUITY, not forex. -/
theorem c3_counterexample :
    "EUR" ∈ MAJOR_FOREX ∧
    (yC3 "EUR").map YahooItem.marketCap = some (some (some 100000000000000)) ∧
    ¬ ((100000000000000 : Int) > 100000000000000) ∧
    Except.map Final.category (resolveSym "EUR" yC3 cNone) =
      Except.ok (some "EQUITY") ∧
    Except.map Final.category (resolveSym "EUR" yC3 cNone) ≠
      Except.ok (some "forex") := by
  refine ⟨by simp [MAJOR_FOREX], rfl, by omega, rfl, ?_⟩
  intro hc
  have h1 : (Except.ok (some "EQUITY") : Except String (Option String)) =
      Except.ok (some "forex") := by
    calc (Except.ok (some "EQUITY") : Except String (Option String))
        = Except.map Final.category (resolveSym "EUR" yC3 cNone) := rfl
      _ = Except.ok (some "forex") := hc
  have h2 := Except.ok.inj h1
  simp at h2

/-! ## Claim C10 -/

/-- Yahoo map for the C10 failing input: a quote whose `marketCap` key is
present but `null` while its quote type is neither INDEX nor FUTURE. -/
def yC10 : String → Option YahooItem := fun s =>
  if s = "AAA" then
    some { symbol := "AAA", quoteType := some "EQUITY",
           marketCap := some Option.none,
           shortName := some "Triple A", longName := Option.none }
  else Option.none

/-- C10, evaluated at the failing input: with a present-but-null market cap
on an EQUITY quote the stock score is Python `None`, and the winner
computation `max(..., key=...)` raises `TypeError` instead of returning a
classification — the duel resolver is not total. -/
theorem c10_duel_not_total :
    processDuel ["AAA"] yC10 cNone =
      Except.error
        "TypeError: '>' not supported between instances of 'int' and 'NoneType'" := by
  rfl

/-! ## Claim C2 -/

/-- Updating a parent other than `p` leaves the entry of `p` unchanged. -/
theorem processItem_at_ne (idMap : String → Option String)
    (results : String → Option CGEntry) (item : String × PriceVal) (p : String)
    (h : idMap item.1 ≠ some p) : processItem idMap results item p = results p := by
  rw [processItem]
  cases hpar : idMap item.1 with
  | none => simp [truthyStrOpt]
  | some q =>
    by_cases hq : q = ""
    · simp [truthyStrOpt, hq]
    · have hqp : q ≠ p := fun hc => h (by rw [hpar, hc])
      simp only [truthyStrOpt, hq, decide_eq_true_eq, if_pos, Option.getD_some, ne_eq,
        not_false_eq_true]
      split
      · have hpq : p ≠ q := fun hc => hqp hc.symm
        simp [hpq]
      · rfl

/-- Updating the parent `p` itself performs one best-candidate step. -/
theorem processItem_at_eq (idMap : String → Option String)
    (results : String → Option CGEntry) (item : String × PriceVal) (p : String)
    (hp : p ≠ "") (h : idMap item.1 = some p) :
    processItem idMap results item p =
      if item.2.usd_market_cap.getD 0 > cryptoScore (results p)
      then some (mkCGEntry item.1 (item.2.usd_market_cap.getD 0))
      else results p := by
  rw [processItem, h]
  simp only [truthyStrOpt, hp, decide_eq_true_eq, if_pos, Option.getD_some, ne_eq,
    not_false_eq_true]
  split
  · simp
  · rfl

/-- The response fold, observed at one parent symbol, is the left-to-right
best-candidate fold over that symbol's queried candidates. -/
theorem processResponse_at (data : List (String × PriceVal))
    (idMap : String → Option String) (results : String → Option CGEntry)
    (p : String) (hp : p ≠ "") :
    processResponse data idMap results p =
      bestAux (results p) (candidatesFor p data idMap) := by
  induction data generalizing results with
  | nil => rfl
  | cons item rest ih =>
    have hstep : processResponse (item :: rest) idMap results =
        processResponse rest idMap (processItem idMap results item) := rfl
    rw [hstep]
    by_cases hpar : idMap item.1 = some p
    · have hcand : candidatesFor p (item :: rest) idMap =
          (item.1, item.2.usd_market_cap.getD 0) :: candidatesFor p rest idMap := by
        simp [candidatesFor, hpar]
      rw [hcand, ih (processItem idMap results item), bestAux,
        processItem_at_eq idMap results item p hp hpar]
    · have hcand : candidatesFor p (item :: rest) idMap =
          candidatesFor p rest idMap := by
        simp [candidatesFor, hpar]
      rw [hcand, ih (processItem idMap results item),
        processItem_at_ne idMap results item p hpar]

/-- Unfolding lemma for `maxCap`. -/
theorem maxCap_cons (c : String × Int) (cs : List (String × Int)) :
    maxCap (c :: cs) = max c.2 (maxCap cs) := rfl

/-- The best-candidate fold keeps the first candidate attaining the strict
maximum, provided the maximum beats the incoming accumulator. -/
theorem bestAux_eq (cs : List (String × Int)) (acc : Option CGEntry)
    (ha : 0 ≤ cryptoScore acc) :
    bestAux acc cs =
      if maxCap cs > cryptoScore acc then
        (cs.find? (fun c => decide (c.2 = maxCap cs))).map (fun c => mkCGEntry c.1 c.2)
      else acc := by
  induction cs generalizing acc with
  | nil =>
    rw [bestAux, if_neg]
    simp only [maxCap, List.map_nil, List.foldr_nil]
    omega
  | cons c cs ih =>
    rw [bestAux]
    by_cases hcm : c.2 > cryptoScore acc
    · rw [if_pos hcm]
      have hval : cryptoScore (some (mkCGEntry c.1 c.2)) = c.2 := rfl
      rw [ih (some (mkCGEntry c.1 c.2)) (by rw [hval]; omega)]
      rw [hval]
      by_cases hR : maxCap cs > c.2
      · have hM : maxCap (c :: cs) = maxCap cs := by rw [maxCap_cons]; omega
        rw [hM, if_pos hR, if_pos (by omega), List.find?_cons,
          show (decide (c.2 = maxCap cs)) = false by simp; omega]
      · have hM : maxCap (c :: cs) = c.2 := by rw [maxCap_cons]; omega
        rw [if_neg hR, hM, if_pos hcm, List.find?_cons,
          show (decide (c.2 = c.2)) = true by simp]
        rfl
    · rw [if_neg hcm, ih acc ha]
      by_cases hR : maxCap cs > cryptoScore acc
      · have hM : maxCap (c :: cs) = maxCap cs := by rw [maxCap_cons]; omega
        rw [if_pos hR, hM, if_pos (by omega), List.find?_cons,
          show (decide (c.2 = maxCap cs)) = false by simp; omega]
      · have hM : ¬ (maxCap (c :: cs) > cryptoScore acc) := by rw [maxCap_cons]; omega
        rw [if_neg hR, if_neg hM]

/-- C2: starting from a fresh results entry, `_process_response` gives a
parent symbol exactly the spec's selection — the queried candidate with the
strictly greatest market cap, first-seen on ties, and no entry at all when
no candidate priced above 0 (in particular when none priced at all). -/
theorem c2_crypto_disambiguation (data : List (String × PriceVal))
    (idMap : String → Option String) (results : String → Option CGEntry)
    (p : String) (hp : p ≠ "") (h0 : results p = Option.none) :
    processResponse data idMap results p =
      cryptoSpecSelect (candidatesFor p data idMap) := by
  rw [processResponse_at data idMap results p hp, h0]
  rw [bestAux_eq (candidatesFor p data idMap) Option.none (by simp [cryptoScore])]
  rfl

/-- Id-to-parent map for the C2 witness: every id belongs to symbol S. -/
def c2idMap : String → Option String := fun _ => some "S"

/-- C2 witness data, caps 5, 100, 1: candidate b wins. -/
def c2data1 : List (String × PriceVal) :=
  [("a", ⟨some 5⟩), ("b", ⟨some 100⟩), ("c", ⟨some 1⟩)]

/-- C2 witness data, caps 100, 100, 1 (tie for the maximum): first-seen
candidate a wins. -/
def c2data2 : List (String × PriceVal) :=
  [("a", ⟨some 100⟩), ("b", ⟨some 100⟩), ("c", ⟨some 1⟩)]

/-- Witness for C2 at the spec's two concrete examples. -/
theorem c2_crypto_disambiguation_witness :
    processResponse c2data1 c2idMap cNone "S" = some (mkCGEntry "b" 100) ∧
    processResponse c2data2 c2idMap cNone "S" = some (mkCGEntry "a" 100) := by
  have h1 := c2_crypto_disambiguation c2data1 c2idMap cNone "S" (by simp) rfl
  have h2 := c2_crypto_disambiguation c2data2 c2idMap cNone "S" (by simp) rfl
  rw [h1, h2]
  exact ⟨rfl, rfl⟩

/-! ## Claim C4 -/

/-- C4, evaluated at the failing state: a failed initial load leaves the
falsy empty dict, and the load performed at the start of every later price
lookup issues the full-listing fetch again — in the sync path and in the
async path — instead of serving the memoized empty map. -/
theorem c4_reload_after_failure :
    (loadMapSync (CGState.mk Option.none) Option.none).1 = CGState.mk (some []) ∧
    (loadMapSync (CGState.mk Option.none) Option.none).2 = true ∧
    (loadMapSync (CGState.mk (some [])) (some [Coin.mk "btc" "bitcoin"])).2 = true ∧
    (loadMapAsync (CGState.mk (some [])) (some [Coin.mk "btc" "bitcoin"])).2 = true :=
  ⟨rfl, rfl, rfl, rfl⟩

/-! ## Claim C9 -/

/-- A lookup succeeds exactly when the key occurs in the dict's key list. -/
theorem lookup_isSome_iff {α : Type} (d : List (String × α)) (s : String) :
    (List.lookup s d).isSome = true ↔ s ∈ d.map Prod.fst := by
  induction d with
  | nil => simp [List.lookup]
  | cons e d ih =>
    obtain ⟨k, v⟩ := e
    rw [List.lookup]
    by_cases h : s = k
    · simp [h]
    · have hb : (s == k) = false := beq_eq_false_iff_ne.mpr h
      simp [hb, h, ih]

/-- Key list of a dict after an assignment `d[k] = v`. -/
theorem keys_dictSet {α : Type} (d : List (String × α)) (k s : String) (v : α) :
    (s ∈ (dictSet d k v).map Prod.fst ↔ s ∈ d.map Prod.fst ∨ s = k) := by
  rw [dictSet]
  by_cases hany : d.any (fun e => decide (e.1 = k))
  · rw [if_pos hany]
    have hkeys : (d.map (fun e => if e.1 = k then (k, v) else e)).map Prod.fst =
        d.map Prod.fst := by
      rw [List.map_map]
      apply List.map_congr_left
      intro e _
      by_cases he : e.1 = k
      · simp [he]
      · simp [he]
    rw [hkeys]
    constructor
    · exact Or.inl
    · rintro (h | h)
      · exact h
      · subst h
        rcases List.any_eq_true.mp hany with ⟨e, he, hek⟩
        simp only [decide_eq_true_eq] at hek
        exact hek ▸ List.mem_map_of_mem Prod.fst he
  · rw [if_neg hany]
    simp

/-- Key membership in the `get_quotes_sync` result map: exactly the
upper-cased symbols of the response items, regardless of quote type. -/
theorem keys_buildQuoteResults (items : List YahooItem) (s : String) :
    s ∈ (buildQuoteResults items).map Prod.fst ↔
      ∃ it ∈ items, pyUpper it.symbol = s := by
  have hgen : ∀ (l : List YahooItem) (acc : List (String × YahooItem)),
      s ∈ (l.foldl (fun a it => dictSet a (pyUpper it.symbol) it) acc).map Prod.fst ↔
        s ∈ acc.map Prod.fst ∨ ∃ it ∈ l, pyUpper it.symbol = s := by
    intro l
    induction l with
    | nil => simp
    | cons it l ih =>
      intro acc
      rw [List.foldl_cons, ih, keys_dictSet]
      constructor
      · rintro ((h | h) | h)
        · exact Or.inl h
        · exact Or.inr ⟨it, List.mem_cons_self it l, h.symm⟩
        · rcases h with ⟨jt, hjt, hj⟩
          exact Or.inr ⟨jt, List.mem_cons_of_mem it hjt, hj⟩
      · rintro (h | ⟨jt, hjt, hj⟩)
        · exact Or.inl (Or.inl h)
        · rcases List.mem_cons.mp hjt with hj1 | hj1
          · subst hj1
            exact Or.inl (Or.inr hj.symm)
          · exact Or.inr ⟨jt, hj1, hj⟩
  rw [buildQuoteResults, hgen items []]
  simp

/-- C9 amended: on a successful 200 response with well-formed body the
result map holds an entry for exactly the upper-cased symbol of every
returned item, with no filtering by quote type; a missing-credentials,
raised, malformed-body, or non-200 outcome yields an empty map. -/
theorem c9_quotes_amended (symbols : List String) (cr : Creds)
    (items : List YahooItem) (s : String) (hs : symbols ≠ []) :
    ((List.lookup s
        (getQuotesSync symbols (some cr) (HttpOutcome.response 200 (some items))).1).isSome
        = true ↔ ∃ it ∈ items, pyUpper it.symbol = s) ∧
    (getQuotesSync symbols Option.none (HttpOutcome.response 200 (some items))).1 = [] ∧
    (getQuotesSync symbols (some cr) HttpOutcome.raised).1 = [] ∧
    (getQuotesSync symbols (some cr) (HttpOutcome.response 200 Option.none)).1 = [] ∧
    (∀ status, status ≠ 200 →
      (getQuotesSync symbols (some cr) (HttpOutcome.response status (some items))).1 = []) := by
  refine ⟨?_, ?_, ?_, ?_, ?_⟩
  · rw [getQuotesSync, if_neg hs]
    simp only [if_pos]
    rw [lookup_isSome_iff, keys_buildQuoteResults]
  · rw [getQuotesSync, if_neg hs]
  · rw [getQuotesSync, if_neg hs]
  · rw [getQuotesSync, if_neg hs]
    simp
  · intro status hstatus
    rw [getQuotesSync, if_neg hs]
    simp only [hstatus, if_neg, if_false]
    split <;> rfl

/-- Quote item for the C9 instances: its type is CRYPTOCURRENCY, outside
the claim's recognized set. -/
def c9item : YahooItem :=
  { symbol := "xyz", quoteType := some "CRYPTOCURRENCY", marketCap := some (some 7),
    shortName := some "Xyz Coin", longName := Option.none }

/-- Response item list for the C9 instances. -/
def c9items : List YahooItem := [c9item]

/-- Witness for the amended C9 at a concrete batch and response. -/
theorem c9_quotes_amended_witness :
    (List.lookup "XYZ"
        (getQuotesSync ["XYZ"] (some (Creds.mk "crumb"))
          (HttpOutcome.response 200 (some c9items))).1).isSome = true ∧
    (getQuotesSync ["XYZ"] (some (Creds.mk "crumb")) HttpOutcome.raised).1 = [] := by
  have h := c9_quotes_amended ["XYZ"] (Creds.mk "crumb") c9items "XYZ" (by simp)
  exact ⟨h.1.mpr ⟨c9item, by simp [c9items], rfl⟩, h.2.2.1⟩

/-- Counterexample to C9 as stated: the provider marks XYZ as
CRYPTOCURRENCY — not one of equity, ETF, index, mutual fund, future — yet
the adapter's result map contains an entry for it. -/
theorem c9_counterexample :
    (List.lookup "XYZ"
        (getQuotesSync ["XYZ"] (some (Creds.mk "crumb"))
          (HttpOutcome.response 200 (some c9items))).1).map YahooItem.quoteType =
      some (some "CRYPTOCURRENCY") ∧
    "CRYPTOCURRENCY" ∉ recognizedQuoteTypes := by
  refine ⟨rfl, by decide⟩

/-! ## Cache lemmas shared by C5, C6, C7 -/

/-- A symbol absent from the table is absent from any `get_many` result. -/
theorem lookup_getmany_core_none (t : List Row) (P : Row → Bool) (s : String)
    (hs : s ∉ t.map Row.symbol) :
    List.lookup s
      ((t.filter P).map (fun r => (r.symbol, { r.data with source := some "cache" })))
      = Option.none := by
  induction t with
  | nil => rfl
  | cons r t ih =>
    have hsr : s ≠ r.symbol := fun h => hs (by simp [h])
    have hst : s ∉ t.map Row.symbol := fun h => hs (by simp [h])
    rw [List.filter_cons]
    by_cases hP : P r
    · rw [if_pos hP, List.map_cons, List.lookup,
        beq_eq_false_iff_ne.mpr hsr]
      exact ih hst
    · rw [if_neg hP]
      exact ih hst

/-- Pointwise characterisation of `get_many` on a table with unique
symbols: a symbol's entry is its (unique) row decorated with
`source = "cache"` exactly when it was requested and its timestamp is
strictly newer than the cutoff. -/
theorem get_many_lookup_eq (table : List Row) (symbols : List String)
    (now hte : Int) (s : String) (hnd : (table.map Row.symbol).Nodup) :
    List.lookup s (get_many table symbols now hte) =
      match table.find? (fun r => decide (r.symbol = s)) with
      | some r =>
        if s ∈ symbols ∧ symbols ≠ [] ∧ r.updated_at > now - hte
        then some { r.data with source := some "cache" } else Option.none
      | Option.none => Option.none := by
  by_cases hsym : symbols = []
  · subst hsym
    rw [get_many, if_pos rfl]
    cases hf : table.find? (fun r => decide (r.symbol = s)) with
    | none => rfl
    | some r => simp
  · rw [get_many, if_neg hsym]
    induction table with
    | nil => rfl
    | cons r t ih =>
      rw [List.map_cons, List.nodup_cons] at hnd
      rw [List.filter_cons, List.find?]
      by_cases hs : s = r.symbol
      · have hb : (decide (r.symbol = s)) = true := decide_eq_true hs.symm
        rw [hb]
        dsimp only
        by_cases hP : (decide (r.symbol ∈ symbols) && decide (r.updated_at > now - hte)) = true
        · rw [if_pos hP, List.map_cons, List.lookup, beq_iff_eq.mpr hs]
          dsimp only
          simp only [Bool.and_eq_true, decide_eq_true_eq] at hP
          rw [if_pos ⟨hs ▸ hP.1, hsym, hP.2⟩]
        · rw [if_neg hP]
          simp only [Bool.and_eq_true, decide_eq_true_eq, not_and] at hP
          rw [if_neg (fun hc => hP (hs ▸ hc.1) hc.2.2)]
          exact lookup_getmany_core_none t _ s (hs ▸ hnd.1)
      · have hb : (decide (r.symbol = s)) = false :=
          decide_eq_false (fun hc => hs hc.symm)
        rw [hb]
        dsimp only
        by_cases hP : (decide (r.symbol ∈ symbols) && decide (r.updated_at > now - hte)) = true
        · rw [if_pos hP, List.map_cons, List.lookup,
            beq_eq_false_iff_ne.mpr hs]
          dsimp only
          exact ih hnd.2
        · rw [if_neg hP]
          exact ih hnd.2

/-- Membership after one `INSERT OR REPLACE`. -/
theorem upsert_mem (t : List Row) (r q : Row) (h : q ∈ upsert t r) :
    q ∈ t ∨ q = r := by
  rw [upsert] at h
  by_cases hany : t.any (fun p => decide (p.symbol = r.symbol))
  · rw [if_pos hany] at h
    rcases List.mem_map.mp h with ⟨p, hp, hq⟩
    by_cases hps : p.symbol = r.symbol
    · rw [if_pos hps] at hq
      exact Or.inr hq.symm
    · rw [if_neg hps] at hq
      exact Or.inl (hq ▸ hp)
  · rw [if_neg hany] at h
    rcases List.mem_append.mp h with h | h
    · exact Or.inl h
    · exact Or.inr (List.mem_singleton.mp h)

/-- `INSERT OR REPLACE` never changes the key list's uniqueness. -/
theorem upsert_nodup (t : List Row) (r : Row)
    (h : (t.map Row.symbol).Nodup) : ((upsert t r).map Row.symbol).Nodup := by
  rw [upsert]
  by_cases hany : t.any (fun p => decide (p.symbol = r.symbol))
  · rw [if_pos hany]
    have hkeys : (t.map (fun q => if q.symbol = r.symbol then r else q)).map Row.symbol
        = t.map Row.symbol := by
      rw [List.map_map]
      apply List.map_congr_left
      intro p _
      by_cases hp : p.symbol = r.symbol
      · simp [hp]
      · simp [hp]
    rw [hkeys]
    exact h
  · rw [if_neg hany, List.map_append]
    have hnot : r.symbol ∉ t.map Row.symbol := by
      intro hmem
      rcases List.mem_map.mp hmem with ⟨p, hp, hps⟩
      exact hany (List.any_eq_true.mpr ⟨p, hp, decide_eq_true hps⟩)
    simp only [List.map_cons, List.map_nil]
    rw [List.nodup_append]
    exact ⟨h, List.nodup_singleton _, by simpa using hnot⟩

/-- `INSERT OR REPLACE` never deletes a symbol. -/
theorem upsert_keeps (t : List Row) (r : Row) (s : String)
    (h : ∃ q ∈ t, q.symbol = s) : ∃ q ∈ upsert t r, q.symbol = s := by
  rcases h with ⟨p, hp, hps⟩
  rw [upsert]
  by_cases hany : t.any (fun q => decide (q.symbol = r.symbol))
  · rw [if_pos hany]
    by_cases hpr : p.symbol = r.symbol
    · refine ⟨r, List.mem_map.mpr ⟨p, hp, by rw [if_pos hpr]⟩, by rw [← hpr, hps]⟩
    · exact ⟨p, List.mem_map.mpr ⟨p, hp, by rw [if_neg hpr]⟩, hps⟩
  · rw [if_neg hany]
    exact ⟨p, List.mem_append_left _ hp, hps⟩

/-- Membership after a whole sequence of upserts. -/
theorem foldl_upsert_mem (w : List Row) (t : List Row) (r : Row)
    (h : r ∈ w.foldl upsert t) : r ∈ t ∨ r ∈ w := by
  induction w generalizing t with
  | nil => exact Or.inl h
  | cons q w ih =>
    rw [List.foldl_cons] at h
    rcases ih (upsert t q) h with h1 | h1
    · rcases upsert_mem t q r h1 with h2 | h2
      · exact Or.inl h2
      · exact Or.inr (h2 ▸ List.mem_cons_self q w)
    · exact Or.inr (List.mem_cons_of_mem q h1)

/-- Key uniqueness survives a whole sequence of upserts. -/
theorem foldl_upsert_nodup (w : List Row) (t : List Row)
    (h : (t.map Row.symbol).Nodup) : ((w.foldl upsert t).map Row.symbol).Nodup := by
  induction w generalizing t with
  | nil => exact h
  | cons q w ih => exact ih (upsert t q) (upsert_nodup t q h)

/-- Symbol presence survives a whole sequence of upserts. -/
theorem foldl_upsert_keeps (w : List Row) (t : List Row) (s : String)
    (h : ∃ q ∈ t, q.symbol = s) : ∃ q ∈ w.foldl upsert t, q.symbol = s := by
  induction w generalizing t with
  | nil => exact h
  | cons q w ih => exact ih (upsert t q) (upsert_keeps t q s h)

/-! ## Claim C6 -/

/-- C6, amended: `get_many` returns exactly the requested rows whose
timestamp satisfies the strict bound `now − window < timestamp` (the SQL
comparison is `updated_at > cutoff`, not `>=`), silently omits missing and
expired entries, and decorates every returned record with
`source = "cache"`. -/
theorem c6_get_many_amended (table : List Row) (symbols : List String)
    (now hte : Int) (s : String) (hnd : (table.map Row.symbol).Nodup) :
    List.lookup s (get_many table symbols now hte) =
      match table.find? (fun r => decide (r.symbol = s)) with
      | some r =>
        if s ∈ symbols ∧ symbols ≠ [] ∧ r.updated_at > now - hte
        then some { r.data with source := some "cache" } else Option.none
      | Option.none => Option.none :=
  get_many_lookup_eq table symbols now hte s hnd

/-- Stored classification used by the cache instances. -/
def sampleFinal : Final :=
  { category := some "EQUITY", ticker := "AAPL", name := some "Apple Inc.",
    market_cap := some 3000000000000, yahoo_lookup := some "AAPL",
    alternatives := [], source := Option.none }

/-- Witness for the amended C6: a fresh row is returned with cache
provenance. -/
theorem c6_get_many_amended_witness :
    List.lookup "AAPL" (get_many [Row.mk "AAPL" sampleFinal 10] ["AAPL"] 24 24) =
      some { sampleFinal with source := some "cache" } := by
  have h := c6_get_many_amended [Row.mk "AAPL" sampleFinal 10] ["AAPL"] 24 24 "AAPL"
    (by simp)
  rw [h]
  rfl

/-- Counterexample to C6 as stated: a row whose timestamp equals
`now − window` exactly satisfies the claim's inclusive bound, yet
`get_many` omits it (the code's comparison is strict). -/
theorem c6_counterexample :
    ((24 : Int) - 24 ≤ (0 : Int)) ∧
    List.lookup "AAPL" (get_many [Row.mk "AAPL" sampleFinal 0] ["AAPL"] 24 24) =
      Option.none :=
  ⟨by omega, rfl⟩

/-! ## Claim C7 -/

/-- C7: after `save_many` on a cache whose rows never carry category
Unknown, still no row carries category Unknown (Unknown records are
skipped); every row is either an untouched old row or a written row with
`source` stripped and timestamp `now`; and no two rows share a symbol. -/
theorem c7_save_many_invariants (table : List Row) (items : List (String × Final))
    (now : Int) (hu : ∀ r ∈ table, r.data.category ≠ some "Unknown")
    (hnd : (table.map Row.symbol).Nodup) :
    (∀ r ∈ save_many table items now, r.data.category ≠ some "Unknown") ∧
    (∀ r ∈ save_many table items now, r ∈ table ∨
      ∃ p ∈ items, p.2.category ≠ some "Unknown" ∧
        r = Row.mk p.1 (stripSource p.2) now) ∧
    ((save_many table items now).map Row.symbol).Nodup := by
  by_cases hit : items = []
  · subst hit
    rw [save_many, if_pos rfl]
    exact ⟨hu, fun r hr => Or.inl hr, hnd⟩
  · rw [save_many, if_neg hit]
    have hmem : ∀ r ∈ ((items.filter
        (fun p => decide (p.2.category ≠ some "Unknown"))).map
          (fun p => Row.mk p.1 (stripSource p.2) now)).foldl upsert table,
        r ∈ table ∨ ∃ p ∈ items, p.2.category ≠ some "Unknown" ∧
          r = Row.mk p.1 (stripSource p.2) now := by
      intro r hr
      rcases foldl_upsert_mem _ table r hr with h | h
      · exact Or.inl h
      · rcases List.mem_map.mp h with ⟨p, hp, hrp⟩
        rcases List.mem_filter.mp hp with ⟨hpi, hpc⟩
        simp only [decide_eq_true_eq] at hpc
        exact Or.inr ⟨p, hpi, hpc, hrp.symm⟩
    refine ⟨?_, hmem, foldl_upsert_nodup _ table hnd⟩
    intro r hr
    rcases hmem r hr with h | ⟨p, _, hpc, hrp⟩
    · exact hu r h
    · rw [hrp]
      exact hpc

/-- Record with category Unknown, for the cache instances. -/
def unknownFinal : Final :=
  { category := some "Unknown", ticker := "BAD", name := Option.none,
    market_cap := Option.none, yahoo_lookup := Option.none,
    alternatives := [], source := Option.none }

/-- Witness for C7: the Unknown record is skipped, the other record is
written with `source` stripped and the write timestamp, and symbols remain
unique. -/
theorem c7_save_many_invariants_witness :
    save_many [] [("AAPL", sampleFinal), ("BAD", unknownFinal)] 5 =
      [Row.mk "AAPL" (stripSource sampleFinal) 5] ∧
    ((save_many [] [("AAPL", sampleFinal), ("BAD", unknownFinal)] 5).map
      Row.symbol).Nodup := by
  refine ⟨rfl, ?_⟩
  exact (c7_save_many_invariants [] [("AAPL", sampleFinal), ("BAD", unknownFinal)] 5
    (by simp) (by simp)).2.2

/-- In a table with unique symbols, two rows sharing a symbol are the same
row. -/
theorem nodup_symbol_eq (table : List Row) (hnd : (table.map Row.symbol).Nodup)
    (q r : Row) (hq : q ∈ table) (hr : r ∈ table) (hs : q.symbol = r.symbol) :
    q = r := by
  induction table with
  | nil => cases hq
  | cons a t ih =>
    rw [List.map_cons, List.nodup_cons] at hnd
    rcases List.mem_cons.mp hq with h1 | h1 <;> rcases List.mem_cons.mp hr with h2 | h2
    · exact h1.trans h2.symm
    · exfalso
      apply hnd.1
      rw [← h1, hs]
      exact List.mem_map_of_mem Row.symbol h2
    · exfalso
      apply hnd.1
      rw [← h2, ← hs]
      exact List.mem_map_of_mem Row.symbol h1
    · exact ih hnd.2 h1 h2

/-! ## Claim C5 -/

/-- Counterexample to C5 as stated: no prune operation exists anywhere on
the `TickerCache` surface. -/
theorem c5_counterexample :
    "pruneCache" ∉ tickerCacheMethods ∧ "prune" ∉ tickerCacheMethods := by
  decide

/-- C5, amended: the cache has no prune operation; no cache write ever
removes a symbol's row (the write path only inserts or replaces), and a
row older than the freshness window is only logically omitted by
`get_many`, not deleted. -/
theorem c5_no_prune_amended (table : List Row) (items : List (String × Final))
    (now hte : Int) (symbols : List String) (r : Row) (hr : r ∈ table) :
    (∃ q ∈ save_many table items now, q.symbol = r.symbol) ∧
    (r.updated_at ≤ now - hte → (table.map Row.symbol).Nodup →
      List.lookup r.symbol (get_many table symbols now hte) = Option.none) := by
  constructor
  · by_cases hit : items = []
    · subst hit
      rw [save_many, if_pos rfl]
      exact ⟨r, hr, rfl⟩
    · rw [save_many, if_neg hit]
      exact foldl_upsert_keeps _ table r.symbol ⟨r, hr, rfl⟩
  · intro hold hnd
    rw [get_many_lookup_eq table symbols now hte r.symbol hnd]
    cases hf : table.find? (fun q => decide (q.symbol = r.symbol)) with
    | none => rfl
    | some q =>
      have hq := List.find?_some hf
      simp only [decide_eq_true_eq] at hq
      have hqt : q ∈ table := List.mem_of_find?_eq_some hf
      have hqr : q = r := nodup_symbol_eq table hnd q r hqt hr hq
      dsimp only
      rw [if_neg]
      intro hc
      have hgt := hc.2.2
      rw [hqr] at hgt
      omega

/-- Witness for the amended C5: an expired row survives a cache write and
is merely omitted by `get_many`. -/
theorem c5_no_prune_amended_witness :
    save_many [Row.mk "OLD" sampleFinal 0] [] 24 = [Row.mk "OLD" sampleFinal 0] ∧
    List.lookup "OLD" (get_many [Row.mk "OLD" sampleFinal 0] ["OLD"] 24 24) =
      Option.none := by
  refine ⟨rfl, ?_⟩
  have h := c5_no_prune_amended [Row.mk "OLD" sampleFinal 0] [] 24 24 ["OLD"]
    (Row.mk "OLD" sampleFinal 0) (by simp)
  exact h.2 (by decide) (by simp)

/-! ## String lemmas for C8 -/

/-- Conversion of a valid code point round-trips through `Char.ofNat`. -/
theorem char_toNat_ofNat (n : Nat) (h : n.isValidChar) :
    (Char.ofNat n).toNat = n := by
  simp [Char.ofNat, h, Char.ofNatAux, Char.toNat, UInt32.toNat, BitVec.toNat_ofNat]

/-- Upper-casing does not change whether a character is whitespace. -/
theorem pyIsSpace_toUpper (c : Char) : pyIsSpace c.toUpper = pyIsSpace c := by
  rw [pyIsSpace, pyIsSpace]
  by_cases h : 97 ≤ c.toNat ∧ c.toNat ≤ 122
  · have hup : c.toUpper = Char.ofNat (c.toNat - 32) := by
      simp [Char.toUpper, h]
    rw [hup]
    have hv : (c.toNat - 32).isValidChar := Or.inl (by omega)
    have ht := char_toNat_ofNat (c.toNat - 32) hv
    have hsp : (' ' : Char).toNat = 32 := by decide
    have htb : ('\t' : Char).toNat = 9 := by decide
    have hnl : ('\n' : Char).toNat = 10 := by decide
    have hcr : ('\r' : Char).toNat = 13 := by decide
    have e1 : Char.ofNat (c.toNat - 32) ≠ ' ' := by
      intro hc
      have := congrArg Char.toNat hc
      rw [ht, hsp] at this
      omega
    have e2 : Char.ofNat (c.toNat - 32) ≠ '\t' := by
      intro hc
      have := congrArg Char.toNat hc
      rw [ht, htb] at this
      omega
    have e3 : Char.ofNat (c.toNat - 32) ≠ '\n' := by
      intro hc
      have := congrArg Char.toNat hc
      rw [ht, hnl] at this
      omega
    have e4 : Char.ofNat (c.toNat - 32) ≠ '\r' := by
      intro hc
      have := congrArg Char.toNat hc
      rw [ht, hcr] at this
      omega
    have f1 : c ≠ ' ' := by
      intro hc
      rw [hc, hsp] at h
      omega
    have f2 : c ≠ '\t' := by
      intro hc
      rw [hc, htb] at h
      omega
    have f3 : c ≠ '\n' := by
      intro hc
      rw [hc, hnl] at h
      omega
    have f4 : c ≠ '\r' := by
      intro hc
      rw [hc, hcr] at h
      omega
    simp [e1, e2, e3, e4, f1, f2, f3, f4]
  · have hup : c.toUpper = c := by
      simp [Char.toUpper, h]
    rw [hup]

/-- A stripped character list is empty exactly when every character is
whitespace. -/
theorem stripChars_eq_nil_iff (l : List Char) :
    stripChars l = [] ↔ ∀ c ∈ l, pyIsSpace c := by
  rw [stripChars]
  constructor
  · intro h c hc
    have h1 : (l.dropWhile pyIsSpace).reverse.dropWhile pyIsSpace = [] := by
      cases hrev : (l.dropWhile pyIsSpace).reverse.dropWhile pyIsSpace with
      | nil => rfl
      | cons a t =>
        rw [hrev] at h
        simp at h
    have h2 : ∀ d ∈ (l.dropWhile pyIsSpace).reverse, pyIsSpace d :=
      List.dropWhile_eq_nil_iff.mp h1
    have h3 : ∀ d ∈ l.dropWhile pyIsSpace, pyIsSpace d := fun d hd =>
      h2 d (List.mem_reverse.mpr hd)
    have hsplit := List.takeWhile_append_dropWhile (p := pyIsSpace) (l := l)
    rw [← hsplit] at hc
    rcases List.mem_append.mp hc with hc | hc
    · exact List.mem_takeWhile_imp hc
    · exact h3 c hc
  · intro h
    rw [List.dropWhile_eq_nil_iff.mpr h]
    rfl

/-- Upper-casing a string does not change whether stripping empties it. -/
theorem pyStrip_pyUpper_eq_empty_iff (s : String) :
    pyStrip (pyUpper s) = "" ↔ pyStrip s = "" := by
  have hempty : ∀ l : List Char, (String.mk l = "") ↔ l = [] := by
    intro l
    constructor
    · intro h
      have := congrArg String.data h
      simpa using this
    · intro h
      rw [h]
  rw [pyStrip, pyStrip, pyUpper, hempty, hempty]
  rw [stripChars_eq_nil_iff, stripChars_eq_nil_iff]
  constructor
  · intro h c hc
    have := h c.toUpper (List.mem_map_of_mem Char.toUpper hc)
    rwa [pyIsSpace_toUpper] at this
  · intro h c hc
    rcases List.mem_map.mp hc with ⟨d, hd, hdc⟩
    rw [← hdc, pyIsSpace_toUpper]
    exact h d hd

/-- Normalisation sends exactly the whitespace-only inputs to the empty
symbol. -/
theorem pyNormalize_eq_empty_iff (s : String) :
    pyNormalize s = "" ↔ pyStrip s = "" := by
  rw [pyNormalize, pyStrip_pyUpper_eq_empty_iff]

/-- The working set never contains the empty symbol. -/
theorem empty_not_mem_uniqueOf (symbols : List String) :
    "" ∉ uniqueOf symbols := by
  intro h
  rw [uniqueOf, List.mem_dedup] at h
  rcases List.mem_map.mp h with ⟨t, ht, hnt⟩
  rcases List.mem_filter.mp ht with ⟨_, hts⟩
  simp only [decide_eq_true_eq] at hts
  exact hts (by rwa [← pyNormalize_eq_empty_iff])

/-! ## Claim C8 -/

/-- Dict lookup distributes over list append. -/
theorem lookup_append {α : Type} (l1 l2 : List (String × α)) (n : String) :
    List.lookup n (l1 ++ l2) =
      match List.lookup n l1 with
      | some v => some v
      | Option.none => List.lookup n l2 := by
  induction l1 with
  | nil => rfl
  | cons e l1 ih =>
    obtain ⟨k, v⟩ := e
    rw [List.cons_append, List.lookup, List.lookup]
    cases hkn : (n == k) with
    | true => rfl
    | false =>
      dsimp only
      exact ih

/-- Value a symbol receives in the initial `results_map`: its decorated
shortcut record if it is a shortcut, else its cache record if cached. -/
def branchVal (cached : String → Option Final) (n : String) : Option Final :=
  match SHORTCUTS n with
  | some r => some (withShortcutSource r)
  | Option.none => cached n

/-- Lookup in the `results_map` built by the shortcut/cache partition. -/
theorem buildBase_fst (u : List String) (cached : String → Option Final)
    (acc : List (String × Final) × List String) (n : String) :
    List.lookup n (u.foldl (baseStep cached) acc).1 =
      match List.lookup n acc.1 with
      | some v => some v
      | Option.none => if n ∈ u then branchVal cached n else Option.none := by
  induction u generalizing acc with
  | nil =>
    simp only [List.foldl_nil, List.not_mem_nil, if_false]
    cases List.lookup n acc.1 <;> rfl
  | cons t u ih =>
    rw [List.foldl_cons, ih]
    by_cases hnt : n = t
    · subst hnt
      rw [if_pos (List.mem_cons_self n u)]
      cases hsh : SHORTCUTS n with
      | some r =>
        simp only [baseStep, hsh]
        rw [lookup_append]
        have hone : List.lookup n [(n, withShortcutSource r)] =
            some (withShortcutSource r) := by
          simp [List.lookup]
        cases hl : List.lookup n acc.1 with
        | none =>
          dsimp only
          rw [hone, branchVal, hsh]
        | some v => rfl
      | none =>
        cases hc : cached n with
        | some r =>
          simp only [baseStep, hsh, hc]
          rw [lookup_append]
          have hone : List.lookup n [(n, r)] = some r := by
            simp [List.lookup]
          cases hl : List.lookup n acc.1 with
          | none =>
            dsimp only
            rw [hone, branchVal, hsh]
            exact hc.symm
          | some v => rfl
        | none =>
          simp only [baseStep, hsh, hc]
          cases hl : List.lookup n acc.1 with
          | none =>
            dsimp only
            rw [branchVal, hsh, hc]
            split <;> rfl
          | some v => rfl
    · simp only [List.mem_cons, hnt, false_or]
      have hacc : List.lookup n (baseStep cached acc t).1 = List.lookup n acc.1 := by
        rw [baseStep]
        cases hsh : SHORTCUTS t with
        | some r =>
          dsimp only
          rw [lookup_append]
          have hone : List.lookup n [(t, withShortcutSource r)] = Option.none := by
            simp [List.lookup, beq_eq_false_iff_ne.mpr hnt]
          rw [hone]
          cases List.lookup n acc.1 <;> rfl
        | none =>
          cases hc : cached t with
          | some r =>
            dsimp only
            rw [lookup_append]
            have hone : List.lookup n [(t, r)] = Option.none := by
              simp [List.lookup, beq_eq_false_iff_ne.mpr hnt]
            rw [hone]
            cases List.lookup n acc.1 <;> rfl
          | none => rfl
      rw [hacc]

/-- Membership in the `to_process` list built by the shortcut/cache
partition. -/
theorem buildBase_snd (u : List String) (cached : String → Option Final)
    (acc : List (String × Final) × List String) (n : String) :
    n ∈ (u.foldl (baseStep cached) acc).2 ↔
      n ∈ acc.2 ∨ (n ∈ u ∧ SHORTCUTS n = Option.none ∧ cached n = Option.none) := by
  induction u generalizing acc with
  | nil => simp
  | cons t u ih =>
    rw [List.foldl_cons, ih]
    by_cases hnt : n = t
    · subst hnt
      cases hsh : SHORTCUTS n with
      | some r =>
        simp only [baseStep, hsh]
        simp [hsh]
      | none =>
        cases hc : cached n with
        | some r =>
          simp only [baseStep, hsh, hc]
          simp [hsh, hc]
        | none =>
          simp only [baseStep, hsh, hc]
          simp [hsh, hc, List.mem_append]
    · cases hsh : SHORTCUTS t with
      | some r =>
        simp only [baseStep, hsh]
        simp [hnt]
      | none =>
        cases hc : cached t with
        | some r =>
          simp only [baseStep, hsh, hc]
          simp [hnt]
        | none =>
          simp only [baseStep, hsh, hc]
          simp [List.mem_append, hnt]

/-- A successful duel keys its result list by exactly the processed
symbols, in order. -/
theorem processDuel_keys (tp : List String) (y : String → Option YahooItem)
    (c : String → Option CGEntry) (pr : List (String × Final))
    (hok : processDuel tp y c = Except.ok pr) : pr.map Prod.fst = tp := by
  induction tp generalizing pr with
  | nil =>
    simp only [processDuel, List.mapM_nil, Pure.pure, Except.pure] at hok
    cases hok
    rfl
  | cons t ts ih =>
    rw [processDuel, List.mapM_cons] at hok
    cases hE : resolveSym t y c with
    | error e =>
      rw [hE] at hok
      simp [Except.map, Except.bind, Bind.bind] at hok
    | ok ft =>
      rw [hE] at hok
      cases hR : ts.mapM (fun s => (resolveSym s y c).map (fun f => (s, f))) with
      | error e =>
        rw [hR] at hok
        simp [Except.map, Except.bind, Bind.bind, Pure.pure] at hok
      | ok rest =>
        rw [hR] at hok
        simp only [Except.map, Except.bind, Bind.bind, Pure.pure, Except.pure] at hok
        cases hok
        rw [List.map_cons]
        rw [ih rest hR]

/-- A key outside a dict's key list looks up to nothing. -/
theorem lookup_eq_none_of_not_mem {α : Type} (d : List (String × α)) (n : String)
    (h : n ∉ d.map Prod.fst) : List.lookup n d = Option.none := by
  cases hl : List.lookup n d with
  | none => rfl
  | some v =>
    exfalso
    apply h
    rw [← lookup_isSome_iff, hl]
    rfl

/-- C8: a successful `classify_bulk` returns the per-input projection of
the merged result map — one element per input element in input order; two
inputs with the same normalized symbol receive identical results; and an
empty or whitespace-only input yields an absent (`none`) element. -/
theorem c8_bulk_order (symbols : List String) (cached : String → Option Final)
    (y : String → Option YahooItem) (c : String → Option CGEntry)
    (out : List (Option Final))
    (hok : classifyBulk symbols cached y c = Except.ok out) :
    (∃ pr, processDuel (buildBase (uniqueOf symbols) cached).2 y c = Except.ok pr ∧
      out = symbols.map (fun s =>
        updatedLookup pr (buildBase (uniqueOf symbols) cached).1 (pyNormalize s))) ∧
    out.length = symbols.length ∧
    (∀ i j si sj, symbols.get? i = some si → symbols.get? j = some sj →
      pyNormalize si = pyNormalize sj → out.get? i = out.get? j) ∧
    (∀ i si, symbols.get? i = some si → pyStrip si = "" →
      out.get? i = some Option.none) := by
  simp only [classifyBulk] at hok
  cases hpd : processDuel (buildBase (uniqueOf symbols) cached).2 y c with
  | error e =>
    rw [hpd] at hok
    simp [Except.bind, Bind.bind] at hok
  | ok pr =>
    rw [hpd] at hok
    simp only [Except.bind, Bind.bind, Pure.pure, Except.pure] at hok
    have hout : out = symbols.map (fun s =>
        updatedLookup pr (buildBase (uniqueOf symbols) cached).1 (pyNormalize s)) := by
      cases hok
      rfl
    refine ⟨⟨pr, rfl, hout⟩, ?_, ?_, ?_⟩
    · rw [hout, List.length_map]
    · intro i j si sj hsi hsj hnorm
      rw [hout, List.get?_map, List.get?_map, hsi, hsj]
      simp only [Option.map_some']
      rw [hnorm]
    · intro i si hsi hstrip
      rw [hout, List.get?_map, hsi]
      simp only [Option.map_some']
      have hempty : pyNormalize si = "" := (pyNormalize_eq_empty_iff si).mpr hstrip
      rw [hempty]
      have hpr : List.lookup "" pr = Option.none := by
        apply lookup_eq_none_of_not_mem
        rw [processDuel_keys _ y c pr hpd]
        rw [buildBase]
        rw [buildBase_snd]
        intro hmem
        rcases hmem with h | h
        · cases h
        · exact empty_not_mem_uniqueOf symbols h.1
      have hbase : List.lookup "" (buildBase (uniqueOf symbols) cached).1 =
          Option.none := by
        rw [buildBase, buildBase_fst]
        have : ("" : String) ∉ uniqueOf symbols := empty_not_mem_uniqueOf symbols
        simp [List.lookup, this]
      rw [updatedLookup, hpr, hbase]

/-- Cache record each witness symbol resolves to. -/
def cbRec (s : String) : Final :=
  { category := some "EQUITY", ticker := s, name := Option.none,
    market_cap := Option.none, yahoo_lookup := some s, alternatives := [],
    source := some "cache" }

/-- Cache oracle for the C8 witness: every symbol is freshly cached. -/
def cachedW : String → Option Final := fun s => some (cbRec s)

/-- Output list `classify_bulk` produces on the C8 witness input. -/
def cbOutW : List (Option Final) :=
  [some (cbRec "NVDA"), some (cbRec "BTC"), some (cbRec "NVDA")]

/-- Witness for C8 at the spec's concrete example input. -/
theorem c8_bulk_order_witness :
    classifyBulk ["nvda", "BTC", " nvda "] cachedW yNone cNone = Except.ok cbOutW ∧
    cbOutW.length = 3 ∧
    cbOutW.get? 0 = cbOutW.get? 2 := by
  have hok : classifyBulk ["nvda", "BTC", " nvda "] cachedW yNone cNone =
      Except.ok cbOutW := by rfl
  have h := c8_bulk_order ["nvda", "BTC", " nvda "] cachedW yNone cNone cbOutW hok
  exact ⟨hok, h.2.1, h.2.2.1 0 2 "nvda" " nvda " rfl rfl (by rfl)⟩

end TickerClassifier
